import Mathlib

/-!
Shallow embedding of the `cpp-simple-vector` repository
(`src/simple-vector/array_ptr.h`, `src/simple-vector/simple_vector.h`).

The dynamic array `SimpleVector<Type>` is modelled as a record of its
logical size, its capacity and the contents of its owned buffer, a list
whose length is the capacity.  `new Type[n]` default-constructs every
slot, so a fresh buffer is `List.replicate n default`; moved-from slots
of a discarded buffer are never read, so element moves are modelled as
copies.  Operations are translated member by member from the source;
iterator parameters become the integer offset `pos - begin()` the code
itself computes.
-/

set_option autoImplicit false
set_option linter.unusedSectionVars false

universe u

variable {α : Type} [Inhabited α]

/-- Errors: `std::out_of_range` thrown by `At`, and `std::bad_alloc` from a failed
`new Type[n]`, as an explicit error type. -/
inductive VectorError where
  | indexOutOfRange
  | allocationFailure
deriving DecidableEq, Repr

/-- Dynamic array state: `size_`, `capacity_`, and the contents of the
buffer owned by `items_` (one list entry per allocated slot). -/
structure SimpleVector (α : Type) where
  size : Nat
  capacity : Nat
  items : List α
deriving DecidableEq, Repr

/-- Live elements: positions `[0, size)` of the buffer. -/
def SimpleVector.elems (v : SimpleVector α) : List α := v.items.take v.size

/-- Well-formedness: `size_ <= capacity_` and the buffer really has
`capacity_` slots. -/
def SimpleVector.WF (v : SimpleVector α) : Prop :=
  v.size ≤ v.capacity ∧ v.items.length = v.capacity

instance (v : SimpleVector α) : Decidable v.WF := by
  unfold SimpleVector.WF; infer_instance

/-- The capacity chosen by the growth branch of `EmplaceBack`/`Emplace`:
`capacity_ == 0 ? 1 : capacity_ * 2`. -/
def newCap (c : Nat) : Nat := if c = 0 then 1 else c * 2

/-- A freshly allocated buffer of `cap` default-constructed slots whose
first `n` slots received the (moved) elements of `src`: the loop
`for i < n: dst[i] = std::move(src[i])` run on `new Type[cap]`. -/
def relocate (src : List α) (n cap : Nat) : List α :=
  src.take n ++ List.replicate (cap - n) (default : α)

/-- Constructor `SimpleVector()` : size 0, capacity 0, no buffer. -/
def SimpleVector.mkDefault : SimpleVector α := ⟨0, 0, []⟩

/-- Constructor `SimpleVector(ReserveProxyObj)` : size 0, capacity `c`, buffer of `c`
default-constructed slots. -/
def SimpleVector.mkReserve (c : Nat) : SimpleVector α :=
  ⟨0, c, List.replicate c default⟩

/-- Constructor `SimpleVector(size_t n)` : buffer of `n` slots, each then assigned
`Type()`. -/
def SimpleVector.mkSized (n : Nat) : SimpleVector α :=
  ⟨n, n, List.replicate n default⟩

/-- Constructor `SimpleVector(size_t n, const Type and value)` : buffer of `n` slots,
each then assigned `value`. -/
def SimpleVector.mkFilled (n : Nat) (x : α) : SimpleVector α :=
  ⟨n, n, List.replicate n x⟩

/-- Constructor `SimpleVector(std::initializer_list)` : buffer of `l.length` slots,
assigned the listed values in order. -/
def SimpleVector.mkFromList (l : List α) : SimpleVector α :=
  ⟨l.length, l.length, l⟩

/-- Copy constructor: buffer of `other.size_` slots, then
`items_[i] = other.items_[i]` for `i < size_`. -/
def SimpleVector.copyCtor (other : SimpleVector α) : SimpleVector α :=
  ⟨other.size, other.size, relocate other.items other.size other.size⟩

/-- Move constructor: steals the buffer and counters; the source's
`ArrayPtr` is left null and its counters zeroed.  First component is the
new vector, second the moved-from source. -/
def SimpleVector.moveCtor (other : SimpleVector α) :
    SimpleVector α × SimpleVector α :=
  (⟨other.size, other.capacity, other.items⟩, ⟨0, 0, []⟩)

/-- Method `Reserve(new_capacity)` : no-op when `new_capacity <= capacity_`,
otherwise allocate, move the `size_` live elements across, swap buffers,
set the capacity. -/
def SimpleVector.Reserve (v : SimpleVector α) (new_capacity : Nat) :
    SimpleVector α :=
  if new_capacity ≤ v.capacity then v
  else ⟨v.size, new_capacity, relocate v.items v.size new_capacity⟩

/-- Method `GetSize()`. -/
def SimpleVector.GetSize (v : SimpleVector α) : Nat := v.size

/-- Method `GetCapacity()`. -/
def SimpleVector.GetCapacity (v : SimpleVector α) : Nat := v.capacity

/-- Method `IsEmpty()`. -/
def SimpleVector.IsEmpty (v : SimpleVector α) : Bool := v.size = 0

/-- Unchecked `operator[]` read (precondition `index < size_`). -/
def SimpleVector.opIndex (v : SimpleVector α) (index : Nat) : α :=
  v.items.getD index default

/-- Writing through the reference returned by `operator[]`:
`v[index] = x`. -/
def SimpleVector.opIndexWrite (v : SimpleVector α) (index : Nat) (x : α) :
    SimpleVector α :=
  { v with items := v.items.set index x }

/-- Method `At(index)` : throws `std::out_of_range` when `index >= size_`, else
returns the element.  The second component is the object after the call;
the method writes no member. -/
def SimpleVector.At (v : SimpleVector α) (index : Nat) :
    Except VectorError α × SimpleVector α :=
  if v.size ≤ index then (.error .indexOutOfRange, v)
  else (.ok (v.items.getD index default), v)

/-- Method `Clear()` : size becomes 0, buffer and capacity untouched. -/
def SimpleVector.Clear (v : SimpleVector α) : SimpleVector α :=
  { v with size := 0 }

/-- Method `Resize(new_size)` : shrink by setting the size; grow in place by
assigning `Type()` to positions `[size_, new_size)`; or reallocate to
exactly `new_size`, move the live elements, default the rest. -/
def SimpleVector.Resize (v : SimpleVector α) (new_size : Nat) :
    SimpleVector α :=
  if new_size ≤ v.size then { v with size := new_size }
  else if new_size ≤ v.capacity then
    ⟨new_size, v.capacity,
      v.items.take v.size ++ List.replicate (new_size - v.size) default ++
        v.items.drop new_size⟩
  else
    ⟨new_size, new_size, relocate v.items v.size new_size⟩

/-- Method `EmplaceBack(args...)` : grow (`newCap`) when `size_ >= capacity_`
by relocating into a fresh buffer, then write the new element at slot
`size_` and increment the size.  The returned reference is the element at
position `size` of the result. -/
def SimpleVector.EmplaceBack (v : SimpleVector α) (x : α) : SimpleVector α :=
  if v.size ≥ v.capacity then
    let c := newCap v.capacity
    ⟨v.size + 1, c, (relocate v.items v.size c).set v.size x⟩
  else
    ⟨v.size + 1, v.capacity, v.items.set v.size x⟩

/-- Method `PushBack(value)` forwards to `EmplaceBack`. -/
def SimpleVector.PushBack (v : SimpleVector α) (x : α) : SimpleVector α :=
  v.EmplaceBack x

/-- Method `Emplace(pos, args...)` with `offset = pos - begin()`.  Growth branch:
fresh buffer of `newCap capacity_` default slots, the prefix `[0, offset)`
moved in, slot `offset` set to the new element, the suffix `[offset, size_)`
moved to `[offset+1, size_+1)`, slots above left default.  In-place branch:
the suffix is shifted one slot right from the back (`items_[i] =
std::move(items_[i-1])` for `i` from `size_` down to `offset+1`), then slot
`offset` is set.  Returns the new state and the returned offset
`begin() + offset`. -/
def SimpleVector.Emplace (v : SimpleVector α) (offset : Nat) (x : α) :
    SimpleVector α × Nat :=
  if v.size ≥ v.capacity then
    let c := newCap v.capacity
    (⟨v.size + 1, c,
      v.items.take offset ++ [x] ++
        (v.items.drop offset).take (v.size - offset) ++
        List.replicate (c - (v.size + 1)) default⟩, offset)
  else
    (⟨v.size + 1, v.capacity,
      v.items.take offset ++ [x] ++
        (v.items.drop offset).take (v.size - offset) ++
        v.items.drop (v.size + 1)⟩, offset)

/-- Method `Insert(pos, value)` forwards to `Emplace`. -/
def SimpleVector.Insert (v : SimpleVector α) (offset : Nat) (x : α) :
    SimpleVector α × Nat :=
  v.Emplace offset x

/-- Method `PopBack()` : decrement the size when positive, otherwise do nothing. -/
def SimpleVector.PopBack (v : SimpleVector α) : SimpleVector α :=
  if v.size > 0 then { v with size := v.size - 1 } else v

/-- Method `Erase(pos)` with `offset = pos - begin()` (precondition
`offset < size_`): shift `items_[i] = std::move(items_[i+1])` for `i` in
`[offset, size_-1)`, decrement the size, return the offset. -/
def SimpleVector.Erase (v : SimpleVector α) (offset : Nat) :
    SimpleVector α × Nat :=
  (⟨v.size - 1, v.capacity,
    v.items.take offset ++
      (v.items.drop (offset + 1)).take (v.size - 1 - offset) ++
      v.items.drop (v.size - 1)⟩, offset)

/-- Method `swap(other)` : exchanges buffers and both counters. -/
def SimpleVector.swapVec (a b : SimpleVector α) :
    SimpleVector α × SimpleVector α :=
  (⟨b.size, b.capacity, b.items⟩, ⟨a.size, a.capacity, a.items⟩)

/-- Copy assignment `operator=(const SimpleVector and rhs)` : guarded by
`this != &rhs`; otherwise copy-and-swap, leaving `*this` equal to a fresh
copy of `rhs`.  `sameObject` models the pointer comparison, so a call with
`sameObject = true` is only meaningful when both arguments are the same
object. -/
def SimpleVector.copyAssign (self rhs : SimpleVector α)
    (sameObject : Bool) : SimpleVector α :=
  if sameObject then self else SimpleVector.copyCtor rhs

/-- Move assignment `operator=(SimpleVector and rhs)` : guarded by
`this != &rhs`; otherwise `*this` takes the buffer and counters and `rhs`
is zeroed (its `ArrayPtr` nulled).  Returns `(*this, rhs)` after the
call. -/
def SimpleVector.moveAssign (self rhs : SimpleVector α)
    (sameObject : Bool) : SimpleVector α × SimpleVector α :=
  if sameObject then (self, rhs)
  else (⟨rhs.size, rhs.capacity, rhs.items⟩, ⟨0, 0, []⟩)

/-!
Allocation-failure variants.  `alloc n` says whether `new Type[n]`
succeeds.  In every growing operation the allocation
(`ArrayPtr<Type> new_items(n)`) happens before any member of the vector
is written, so on failure the exception propagates with the vector in its
pre-call state.  Each variant returns the raised error (if any) together
with the observable state of the object after the call.
-/

/-- Method `Reserve` with an explicit allocation oracle. -/
def SimpleVector.ReserveF (alloc : Nat → Bool) (v : SimpleVector α)
    (new_capacity : Nat) : Option VectorError × SimpleVector α :=
  if new_capacity ≤ v.capacity then (none, v)
  else if alloc new_capacity then
    (none, ⟨v.size, new_capacity, relocate v.items v.size new_capacity⟩)
  else (some .allocationFailure, v)

/-- Method `Resize` with an explicit allocation oracle; only the
`new_size > capacity_` branch allocates. -/
def SimpleVector.ResizeF (alloc : Nat → Bool) (v : SimpleVector α)
    (new_size : Nat) : Option VectorError × SimpleVector α :=
  if new_size ≤ v.size then (none, { v with size := new_size })
  else if new_size ≤ v.capacity then
    (none, ⟨new_size, v.capacity,
      v.items.take v.size ++ List.replicate (new_size - v.size) default ++
        v.items.drop new_size⟩)
  else if alloc new_size then
    (none, ⟨new_size, new_size, relocate v.items v.size new_size⟩)
  else (some .allocationFailure, v)

/-- Method `EmplaceBack` with an explicit allocation oracle; only the full-buffer
branch allocates. -/
def SimpleVector.EmplaceBackF (alloc : Nat → Bool) (v : SimpleVector α)
    (x : α) : Option VectorError × SimpleVector α :=
  if v.size ≥ v.capacity then
    let c := newCap v.capacity
    if alloc c then
      (none, ⟨v.size + 1, c, (relocate v.items v.size c).set v.size x⟩)
    else (some .allocationFailure, v)
  else (none, ⟨v.size + 1, v.capacity, v.items.set v.size x⟩)

/-- Method `Emplace` with an explicit allocation oracle; only the full-buffer
branch allocates.  The returned iterator is omitted: on failure the call
does not return. -/
def SimpleVector.EmplaceF (alloc : Nat → Bool) (v : SimpleVector α)
    (offset : Nat) (x : α) : Option VectorError × SimpleVector α :=
  if v.size ≥ v.capacity then
    let c := newCap v.capacity
    if alloc c then
      (none, ⟨v.size + 1, c,
        v.items.take offset ++ [x] ++
          (v.items.drop offset).take (v.size - offset) ++
          List.replicate (c - (v.size + 1)) default⟩)
    else (some .allocationFailure, v)
  else
    (none, ⟨v.size + 1, v.capacity,
      v.items.take offset ++ [x] ++
        (v.items.drop offset).take (v.size - offset) ++
        v.items.drop (v.size + 1)⟩)

/-!
The buffer owner `ArrayPtr<Type>` (`src/simple-vector/array_ptr.h`).
A value either owns a block (its contents, as a list) or owns nothing.
Move operations additionally report how many heap allocations and
deallocations they perform, translated statement by statement:
`delete[] p` frees one block when `p` is non-null and nothing otherwise,
and neither move operation calls `new`.
-/

/-- Buffer owner: `raw_ptr_` is null (`none`) or owns a block. -/
structure ArrayPtr (α : Type) where
  block : Option (List α)
deriving DecidableEq, Repr

/-- Conversion `explicit operator bool()` : true iff owning a non-null block. -/
def ArrayPtr.toBool (p : ArrayPtr α) : Bool := p.block.isSome

/-- Heap effect of `delete[] raw_ptr_`: one deallocation when the pointer
is non-null, none when it is null. -/
def ArrayPtr.deleteCount (p : ArrayPtr α) : Nat :=
  if p.block.isSome then 1 else 0

/-- Outcome of a move operation on `ArrayPtr`: the destination and source
after the call, plus the number of allocations and deallocations the
operation performed. -/
structure MoveEffect (α : Type) where
  dest : ArrayPtr α
  src : ArrayPtr α
  allocations : Nat
  deallocations : Nat
deriving DecidableEq, Repr

/-- Constructor `ArrayPtr(ArrayPtr and other)` : takes `other.raw_ptr_`, nulls the
source; no heap call. -/
def ArrayPtr.moveCtor (other : ArrayPtr α) : MoveEffect α :=
  ⟨⟨other.block⟩, ⟨none⟩, 0, 0⟩

/-- Assignment `operator=(ArrayPtr and other)` : guarded by `this != &other`; in the
distinct case it runs `delete[] raw_ptr_` (freeing the destination's old
block when non-null), takes `other.raw_ptr_`, and nulls the source. -/
def ArrayPtr.moveAssign (self other : ArrayPtr α) (sameObject : Bool) :
    MoveEffect α :=
  if sameObject then ⟨self, other, 0, 0⟩
  else ⟨⟨other.block⟩, ⟨none⟩, 0, self.deleteCount⟩

/-!
Repeated `PushBack` from a default-constructed vector, and the capacity
the doubling policy reaches: 0 while empty, otherwise the least power of
two that is at least the element count.
-/

/-- Repeated pushes, `N` of them, on a default-constructed vector, in order. -/
def pushAll (xs : List α) : SimpleVector α :=
  xs.foldl (fun v x => v.PushBack x) SimpleVector.mkDefault

/-- The doubling sequence 0, 1, 2, 4, 8, ...: after `n` pushes the
capacity is 0 when `n = 0` and otherwise the least power of two with
`n ≤ 2 ^ k`. -/
def capSeq (n : Nat) : Nat := if n = 0 then 0 else 2 ^ Nat.clog 2 n

/-!
Well-formedness is established by every constructor and preserved by every
public operation (positional operations under their documented caller
obligations: `Emplace` at an offset at most `size`, `Erase` at a live
offset).
-/

lemma newCap_lt (c : Nat) : c < newCap c := by
  unfold newCap; split <;> omega

lemma relocate_length {src : List α} {n cap : Nat} (h1 : n ≤ src.length)
    (h2 : n ≤ cap) : (relocate src n cap).length = cap := by
  simp [relocate]; omega

lemma wf_mkDefault : (SimpleVector.mkDefault (α := α)).WF := by
  simp [SimpleVector.WF, SimpleVector.mkDefault]

lemma wf_mkReserve (c : Nat) : (SimpleVector.mkReserve (α := α) c).WF := by
  simp [SimpleVector.WF, SimpleVector.mkReserve]

lemma wf_mkSized (n : Nat) : (SimpleVector.mkSized (α := α) n).WF := by
  simp [SimpleVector.WF, SimpleVector.mkSized]

lemma wf_mkFilled (n : Nat) (x : α) : (SimpleVector.mkFilled n x).WF := by
  simp [SimpleVector.WF, SimpleVector.mkFilled]

lemma wf_mkFromList (l : List α) : (SimpleVector.mkFromList l).WF := by
  simp [SimpleVector.WF, SimpleVector.mkFromList]

lemma wf_copyCtor {v : SimpleVector α} (h : v.WF) : v.copyCtor.WF := by
  obtain ⟨h1, h2⟩ := h
  exact ⟨le_refl _, by
    simp [SimpleVector.copyCtor, relocate_length (h2 ▸ h1) (le_refl _)]⟩

lemma wf_moveCtor_fst {v : SimpleVector α} (h : v.WF) : (v.moveCtor).1.WF := h

lemma wf_moveCtor_snd (v : SimpleVector α) : (v.moveCtor).2.WF := by
  simp [SimpleVector.WF, SimpleVector.moveCtor]

lemma wf_Reserve {v : SimpleVector α} (h : v.WF) (c : Nat) :
    (v.Reserve c).WF := by
  obtain ⟨h1, h2⟩ := h
  unfold SimpleVector.Reserve
  split
  · exact ⟨h1, h2⟩
  · simp only [SimpleVector.WF]
    simp [relocate]
    omega

lemma wf_Clear {v : SimpleVector α} (h : v.WF) : v.Clear.WF :=
  ⟨Nat.zero_le _, h.2⟩

lemma wf_Resize {v : SimpleVector α} (h : v.WF) (n : Nat) :
    (v.Resize n).WF := by
  obtain ⟨h1, h2⟩ := h
  unfold SimpleVector.Resize
  split
  · exact ⟨by simp only [SimpleVector.WF] at *; omega, h2⟩
  · split
    · simp only [SimpleVector.WF]
      simp
      omega
    · simp only [SimpleVector.WF]
      simp [relocate]
      omega

lemma wf_EmplaceBack {v : SimpleVector α} (h : v.WF) (x : α) :
    (v.EmplaceBack x).WF := by
  obtain ⟨h1, h2⟩ := h
  unfold SimpleVector.EmplaceBack
  split
  · have hc := newCap_lt v.capacity
    simp only [SimpleVector.WF]
    simp [relocate]
    omega
  · simp only [SimpleVector.WF]
    simp
    omega

lemma wf_PushBack {v : SimpleVector α} (h : v.WF) (x : α) :
    (v.PushBack x).WF := wf_EmplaceBack h x

lemma wf_Emplace {v : SimpleVector α} (h : v.WF) {k : Nat} (x : α)
    (hk : k ≤ v.size) : (v.Emplace k x).1.WF := by
  obtain ⟨h1, h2⟩ := h
  unfold SimpleVector.Emplace
  split
  · have hc := newCap_lt v.capacity
    simp only [SimpleVector.WF]
    simp
    omega
  · simp only [SimpleVector.WF]
    simp
    omega

lemma wf_Insert {v : SimpleVector α} (h : v.WF) {k : Nat} (x : α)
    (hk : k ≤ v.size) : (v.Insert k x).1.WF := wf_Emplace h x hk

lemma wf_PopBack {v : SimpleVector α} (h : v.WF) : v.PopBack.WF := by
  obtain ⟨h1, h2⟩ := h
  unfold SimpleVector.PopBack
  split
  · simp only [SimpleVector.WF]
    simp
    omega
  · exact ⟨h1, h2⟩

lemma wf_Erase {v : SimpleVector α} (h : v.WF) {k : Nat}
    (hk : k < v.size) : (v.Erase k).1.WF := by
  obtain ⟨h1, h2⟩ := h
  simp only [SimpleVector.WF, SimpleVector.Erase]
  simp
  omega

lemma wf_swapVec_fst {a b : SimpleVector α} (hb : b.WF) :
    (SimpleVector.swapVec a b).1.WF := hb

lemma wf_swapVec_snd {a b : SimpleVector α} (ha : a.WF) :
    (SimpleVector.swapVec a b).2.WF := ha

lemma wf_copyAssign {u v : SimpleVector α} (hu : u.WF) (hv : v.WF)
    (same : Bool) : (u.copyAssign v same).WF := by
  unfold SimpleVector.copyAssign
  split
  · exact hu
  · exact wf_copyCtor hv

lemma wf_moveAssign_fst {u v : SimpleVector α} (hu : u.WF) (hv : v.WF)
    (same : Bool) : (u.moveAssign v same).1.WF := by
  unfold SimpleVector.moveAssign
  split
  · exact hu
  · exact hv

lemma wf_moveAssign_snd {u v : SimpleVector α} (hu : u.WF) (hv : v.WF)
    (same : Bool) : (u.moveAssign v same).2.WF := by
  unfold SimpleVector.moveAssign
  split
  · exact hv
  · simp [SimpleVector.WF]

lemma at_state (v : SimpleVector α) (i : Nat) : (v.At i).2 = v := by
  unfold SimpleVector.At
  split <;> rfl

/-- States reachable from the public constructors by sequences of public
operations, each positional operation used under its documented caller
obligation. -/
inductive Reachable : SimpleVector α → Prop where
  | mkDefault : Reachable .mkDefault
  | mkReserve (c : Nat) : Reachable (.mkReserve c)
  | mkSized (n : Nat) : Reachable (.mkSized n)
  | mkFilled (n : Nat) (x : α) : Reachable (.mkFilled n x)
  | mkFromList (l : List α) : Reachable (.mkFromList l)
  | copyCtor {v} : Reachable v → Reachable (SimpleVector.copyCtor v)
  | moveCtorDst {v} : Reachable v → Reachable (SimpleVector.moveCtor v).1
  | moveCtorSrc {v} : Reachable v → Reachable (SimpleVector.moveCtor v).2
  | reserve {v} (c : Nat) : Reachable v → Reachable (v.Reserve c)
  | atCall {v} (i : Nat) : Reachable v → Reachable (v.At i).2
  | clear {v} : Reachable v → Reachable v.Clear
  | resize {v} (n : Nat) : Reachable v → Reachable (v.Resize n)
  | pushBack {v} (x : α) : Reachable v → Reachable (v.PushBack x)
  | emplace {v k} (x : α) : Reachable v → k ≤ v.size →
      Reachable (v.Emplace k x).1
  | popBack {v} : Reachable v → Reachable v.PopBack
  | erase {v k} : Reachable v → k < v.size → Reachable (v.Erase k).1
  | swapFst {u v} : Reachable u → Reachable v →
      Reachable (SimpleVector.swapVec u v).1
  | swapSnd {u v} : Reachable u → Reachable v →
      Reachable (SimpleVector.swapVec u v).2
  | copyAssignSelf {v} : Reachable v → Reachable (v.copyAssign v true)
  | copyAssignDistinct {u v} : Reachable u → Reachable v →
      Reachable (u.copyAssign v false)
  | moveAssignSelf {v} : Reachable v → Reachable (v.moveAssign v true).1
  | moveAssignDst {u v} : Reachable u → Reachable v →
      Reachable (u.moveAssign v false).1
  | moveAssignSrc {u v} : Reachable u → Reachable v →
      Reachable (u.moveAssign v false).2

lemma reachable_wf {v : SimpleVector α} (h : Reachable v) : v.WF := by
  induction h with
  | mkDefault => exact wf_mkDefault
  | mkReserve c => exact wf_mkReserve c
  | mkSized n => exact wf_mkSized n
  | mkFilled n x => exact wf_mkFilled n x
  | mkFromList l => exact wf_mkFromList l
  | copyCtor _ ih => exact wf_copyCtor ih
  | moveCtorDst _ ih => exact wf_moveCtor_fst ih
  | moveCtorSrc _ _ => exact wf_moveCtor_snd _
  | reserve c _ ih => exact wf_Reserve ih c
  | atCall i _ ih => rw [at_state]; exact ih
  | clear _ ih => exact wf_Clear ih
  | resize n _ ih => exact wf_Resize ih n
  | pushBack x _ ih => exact wf_PushBack ih x
  | emplace x _ hk ih => exact wf_Emplace ih x hk
  | popBack _ ih => exact wf_PopBack ih
  | erase _ hk ih => exact wf_Erase ih hk
  | swapFst _ _ _ ihv => exact wf_swapVec_fst ihv
  | swapSnd _ _ ihu _ => exact wf_swapVec_snd ihu
  | copyAssignSelf _ ih => exact wf_copyAssign ih ih true
  | copyAssignDistinct _ _ ihu ihv => exact wf_copyAssign ihu ihv false
  | moveAssignSelf _ ih => exact wf_moveAssign_fst ih ih true
  | moveAssignDst _ _ ihu ihv => exact wf_moveAssign_fst ihu ihv false
  | moveAssignSrc _ _ ihu ihv => exact wf_moveAssign_snd ihu ihv false

/-- C2: every reachable state of a `SimpleVector` — produced from any of
its constructors by any sequence of public operations — has logical size
at most capacity; every public operation preserves this invariant. -/
theorem reachable_size_le_capacity {v : SimpleVector α}
    (h : Reachable v) : v.size ≤ v.capacity :=
  (reachable_wf h).1

/-- Witness for C2 at a concrete reachable state. -/
theorem reachable_size_le_capacity_witness :
    (SimpleVector.mkFromList [5, 7]).PopBack.size ≤
      (SimpleVector.mkFromList [(5 : Nat), 7]).PopBack.capacity :=
  reachable_size_le_capacity (Reachable.popBack (Reachable.mkFromList _))

/-!
Behaviour of one append, and of a sequence of appends from a
default-constructed vector (claim C1).
-/

lemma take_append_left {l1 l2 : List α} {n : Nat} (h : l1.length = n) :
    (l1 ++ l2).take n = l1 := by
  subst h
  simp

lemma take_succ_set (l : List α) (n : Nat) (x : α) (h : n < l.length) :
    (l.set n x).take (n + 1) = l.take n ++ [x] := by
  induction l generalizing n with
  | nil => simp at h
  | cons a t ih =>
    cases n with
    | zero => simp
    | succ m =>
      simp only [List.set, List.take, List.cons_append]
      rw [ih m (by simpa using h)]

lemma relocate_take {src : List α} {n cap : Nat} (h1 : n ≤ src.length)
    (h2 : n ≤ cap) : (relocate src n cap).take n = src.take n := by
  unfold relocate
  exact take_append_left (by simp; omega)

lemma size_EmplaceBack (v : SimpleVector α) (x : α) :
    (v.EmplaceBack x).size = v.size + 1 := by
  unfold SimpleVector.EmplaceBack
  split <;> rfl

lemma capacity_EmplaceBack (v : SimpleVector α) (x : α) :
    (v.EmplaceBack x).capacity =
      if v.capacity ≤ v.size then newCap v.capacity else v.capacity := by
  unfold SimpleVector.EmplaceBack
  split <;> simp_all

lemma elems_EmplaceBack {v : SimpleVector α} (h : v.WF) (x : α) :
    (v.EmplaceBack x).elems = v.elems ++ [x] := by
  obtain ⟨h1, h2⟩ := h
  unfold SimpleVector.EmplaceBack SimpleVector.elems
  split
  · have hsc : v.size = v.capacity := by omega
    have hlt : v.size < (relocate v.items v.size (newCap v.capacity)).length := by
      rw [relocate_length (by omega) (by have := newCap_lt v.capacity; omega)]
      have := newCap_lt v.capacity
      omega
    simp only []
    rw [take_succ_set _ _ _ hlt,
      relocate_take (by omega) (by have := newCap_lt v.capacity; omega)]
  · have hlt : v.size < v.items.length := by omega
    simp only []
    rw [take_succ_set _ _ _ hlt]

lemma le_capSeq (n : Nat) : n ≤ capSeq n := by
  unfold capSeq
  split
  · omega
  · exact Nat.le_pow_clog (by omega) n

lemma capSeq_succ_of_full {n : Nat} (h : n = capSeq n) :
    capSeq (n + 1) = newCap (capSeq n) := by
  rcases Nat.eq_zero_or_pos n with h0 | h0
  · subst h0
    simp [capSeq, newCap, Nat.clog_one_right]
  · have hk : n = 2 ^ Nat.clog 2 n := by
      conv_lhs => rw [h]
      unfold capSeq
      rw [if_neg (by omega)]
    have hle : Nat.clog 2 (n + 1) ≤ Nat.clog 2 n + 1 := by
      rw [← Nat.le_pow_iff_clog_le (by omega : (1 : Nat) < 2), pow_succ]
      omega
    have hgt : Nat.clog 2 n < Nat.clog 2 (n + 1) := by
      rw [← Nat.pow_lt_iff_lt_clog (by omega : (1 : Nat) < 2)]
      omega
    have heq : Nat.clog 2 (n + 1) = Nat.clog 2 n + 1 := by omega
    have lhs_eq : capSeq (n + 1) = 2 ^ Nat.clog 2 (n + 1) := by
      unfold capSeq
      rw [if_neg (by omega)]
    have rhs1 : capSeq n = 2 ^ Nat.clog 2 n := by
      unfold capSeq
      rw [if_neg (by omega)]
    have hpow : 0 < 2 ^ Nat.clog 2 n := pow_pos (by omega) _
    have rhs_eq : newCap (capSeq n) = 2 ^ Nat.clog 2 n * 2 := by
      unfold newCap
      rw [rhs1, if_neg (by omega)]
    rw [lhs_eq, rhs_eq, heq, pow_succ]

lemma capSeq_succ_of_lt {n : Nat} (h : n < capSeq n) :
    capSeq (n + 1) = capSeq n := by
  have h0 : 0 < n := by
    by_contra hc
    have : n = 0 := by omega
    subst this
    simp [capSeq] at h
  have hle : Nat.clog 2 (n + 1) ≤ Nat.clog 2 n := by
    rw [← Nat.le_pow_iff_clog_le (by omega)]
    have : capSeq n = 2 ^ Nat.clog 2 n := by
      unfold capSeq; rw [if_neg (by omega)]
    omega
  have hge : Nat.clog 2 n ≤ Nat.clog 2 (n + 1) :=
    Nat.clog_mono_right 2 (by omega)
  unfold capSeq
  rw [if_neg (by omega), if_neg (by omega),
    le_antisymm hle hge]

lemma pushAll_step {v : SimpleVector α} {n : Nat} (h : v.WF)
    (hs : v.size = n) (hc : v.capacity = capSeq n) (x : α) :
    (v.PushBack x).WF ∧ (v.PushBack x).size = n + 1 ∧
      (v.PushBack x).capacity = capSeq (n + 1) := by
  refine ⟨wf_PushBack h x, by rw [SimpleVector.PushBack, size_EmplaceBack, hs], ?_⟩
  rw [SimpleVector.PushBack, capacity_EmplaceBack]
  split
  · have hub := le_capSeq n
    have hfull : n = capSeq n := by omega
    rw [hc, ← capSeq_succ_of_full hfull]
  · have hlt : n < capSeq n := by omega
    rw [hc, capSeq_succ_of_lt hlt]

lemma pushAll_loop (xs : List α) (v : SimpleVector α) (n : Nat) (h : v.WF)
    (hs : v.size = n) (hc : v.capacity = capSeq n) :
    (xs.foldl (fun w x => w.PushBack x) v).WF ∧
      (xs.foldl (fun w x => w.PushBack x) v).size = n + xs.length ∧
      (xs.foldl (fun w x => w.PushBack x) v).capacity =
        capSeq (n + xs.length) := by
  induction xs generalizing v n with
  | nil => simpa using ⟨h, hs, hc⟩
  | cons a t ih =>
    obtain ⟨hw, hsz, hcp⟩ := pushAll_step h hs hc a
    simpa only [List.foldl_cons, List.length_cons,
      Nat.add_succ, Nat.succ_add] using ih (v.PushBack a) (n + 1) hw hsz hcp

lemma pushAll_spec (xs : List α) :
    (pushAll xs).WF ∧ (pushAll xs).size = xs.length ∧
      (pushAll xs).capacity = capSeq xs.length := by
  have := pushAll_loop xs SimpleVector.mkDefault 0 wf_mkDefault rfl rfl
  simpa [pushAll] using this

/-- C1: `PushBack`/`EmplaceBack` appends the element at position `size`
(it becomes the last element, prior elements and order unchanged, size
grows by one); a full vector's capacity becomes 1 from 0 and doubles
otherwise, and is unchanged when `size < capacity`; after `N` pushes on
a default-constructed vector the size is `N` and the capacity is the
doubling sequence 0, 1, 2, 4, ... and never less than the size. -/
theorem pushBack_spec {v : SimpleVector α} (x : α) (h : v.WF) :
    v.EmplaceBack x = v.PushBack x ∧
    (v.PushBack x).size = v.size + 1 ∧
    (v.PushBack x).elems = v.elems ++ [x] ∧
    (v.size = v.capacity → (v.PushBack x).capacity =
      (if v.capacity = 0 then 1 else 2 * v.capacity)) ∧
    (v.size < v.capacity → (v.PushBack x).capacity = v.capacity) ∧
    ∀ xs : List α, (pushAll xs).GetSize = xs.length ∧
      (pushAll xs).GetCapacity = capSeq xs.length ∧
      (pushAll xs).GetSize ≤ (pushAll xs).GetCapacity := by
  refine ⟨rfl, size_EmplaceBack v x, elems_EmplaceBack h x, ?_, ?_, ?_⟩
  · intro hfull
    rw [SimpleVector.PushBack, capacity_EmplaceBack, if_pos (by omega)]
    unfold newCap
    split <;> omega
  · intro hlt
    rw [SimpleVector.PushBack, capacity_EmplaceBack, if_neg (by omega)]
  · intro xs
    obtain ⟨hw, hsz, hcp⟩ := pushAll_spec xs
    refine ⟨hsz, hcp, ?_⟩
    rw [SimpleVector.GetSize, SimpleVector.GetCapacity, hsz, hcp]
    exact le_capSeq xs.length

/-- Witness for C1: pushing 9 onto the full two-element vector
`{1, 2}`. -/
theorem pushBack_spec_witness :
    (SimpleVector.mkFromList [(1 : Nat), 2]).WF ∧
    ((SimpleVector.mkFromList [(1 : Nat), 2]).PushBack 9).elems =
      (SimpleVector.mkFromList [(1 : Nat), 2]).elems ++ [9] :=
  ⟨by decide, (pushBack_spec 9 (by decide)).2.2.1⟩

/-!
Behaviour of positional insertion (claim C3).
-/

lemma size_Emplace (v : SimpleVector α) (k : Nat) (x : α) :
    (v.Emplace k x).1.size = v.size + 1 := by
  unfold SimpleVector.Emplace
  split <;> rfl

lemma ret_Emplace (v : SimpleVector α) (k : Nat) (x : α) :
    (v.Emplace k x).2 = k := by
  unfold SimpleVector.Emplace
  split <;> rfl

lemma capacity_Emplace (v : SimpleVector α) (k : Nat) (x : α) :
    (v.Emplace k x).1.capacity =
      if v.capacity ≤ v.size then newCap v.capacity else v.capacity := by
  unfold SimpleVector.Emplace
  split <;> simp_all

lemma elems_Emplace {v : SimpleVector α} {k : Nat} (x : α) (h : v.WF)
    (hk : k ≤ v.size) :
    (v.Emplace k x).1.elems = v.elems.take k ++ [x] ++ v.elems.drop k := by
  obtain ⟨h1, h2⟩ := h
  unfold SimpleVector.Emplace SimpleVector.elems
  split
  · simp only []
    rw [List.take_take, List.drop_take, Nat.min_eq_left hk,
      take_append_left (by simp; omega)]
  · simp only []
    rw [List.take_take, List.drop_take, Nat.min_eq_left hk,
      take_append_left (by simp; omega)]

/-- C3: `Insert`/`Emplace` at position `k ≤ size` yields the original
prefix, the new element, then the original suffix (relative order of the
old elements preserved), size grows by one, and the returned position is
`k`; a full vector grows by the same doubling policy as append; in
particular inserting 0 at the front of the full `{1, 2, 3}` yields
`{0, 1, 2, 3}` with size 4 and capacity at least 4. -/
theorem emplace_spec {v : SimpleVector α} {k : Nat} (x : α) (h : v.WF)
    (hk : k ≤ v.size) :
    v.Insert k x = v.Emplace k x ∧
    (v.Emplace k x).1.elems = v.elems.take k ++ [x] ++ v.elems.drop k ∧
    (v.Emplace k x).1.size = v.size + 1 ∧
    (v.Emplace k x).2 = k ∧
    (v.size = v.capacity → (v.Emplace k x).1.capacity =
      (if v.capacity = 0 then 1 else 2 * v.capacity)) ∧
    (v.size < v.capacity → (v.Emplace k x).1.capacity = v.capacity) ∧
    ((SimpleVector.mkFromList [(1 : Nat), 2, 3]).Emplace 0 0).1.elems =
      [0, 1, 2, 3] ∧
    ((SimpleVector.mkFromList [(1 : Nat), 2, 3]).Emplace 0 0).1.size = 4 ∧
    4 ≤ ((SimpleVector.mkFromList [(1 : Nat), 2, 3]).Emplace 0 0).1.capacity
    := by
  refine ⟨rfl, elems_Emplace x h hk, size_Emplace v k x, ret_Emplace v k x,
    ?_, ?_, by decide, by decide, by decide⟩
  · intro hfull
    rw [capacity_Emplace, if_pos (by omega)]
    unfold newCap
    split <;> omega
  · intro hlt
    rw [capacity_Emplace, if_neg (by omega)]

/-- Witness for C3: inserting 9 in the middle of `{4, 5}`. -/
theorem emplace_spec_witness :
    (SimpleVector.mkFromList [(4 : Nat), 5]).WF ∧
    ((SimpleVector.mkFromList [(4 : Nat), 5]).Emplace 1 9).1.elems =
      (SimpleVector.mkFromList [(4 : Nat), 5]).elems.take 1 ++ [9] ++
        (SimpleVector.mkFromList [(4 : Nat), 5]).elems.drop 1 :=
  ⟨by decide, (emplace_spec 9 (by decide) (by decide)).2.1⟩

/-!
Behaviour of `Resize` (claim C4).
-/

lemma size_Resize (v : SimpleVector α) (n : Nat) : (v.Resize n).size = n := by
  unfold SimpleVector.Resize
  split
  · rfl
  · split <;> rfl

lemma resize_shrink {v : SimpleVector α} {n : Nat} (hn : n ≤ v.size) :
    v.Resize n = ⟨n, v.capacity, v.items⟩ := by
  unfold SimpleVector.Resize
  rw [if_pos hn]

lemma resize_inplace {v : SimpleVector α} {n : Nat} (h : v.WF)
    (hlo : v.size < n) (hhi : n ≤ v.capacity) :
    (v.Resize n).size = n ∧ (v.Resize n).capacity = v.capacity ∧
    (v.Resize n).elems = v.elems ++ List.replicate (n - v.size) default := by
  obtain ⟨hw1, hw2⟩ := h
  unfold SimpleVector.Resize SimpleVector.elems
  rw [if_neg (by omega), if_pos hhi]
  refine ⟨rfl, rfl, ?_⟩
  simp only []
  rw [take_append_left (by simp; omega)]

lemma resize_realloc {v : SimpleVector α} {n : Nat} (h : v.WF)
    (hhi : v.capacity < n) :
    (v.Resize n).size = n ∧ (v.Resize n).capacity = n ∧
    (v.Resize n).elems = v.elems ++ List.replicate (n - v.size) default := by
  obtain ⟨hw1, hw2⟩ := h
  unfold SimpleVector.Resize SimpleVector.elems relocate
  rw [if_neg (by omega), if_neg (by omega)]
  refine ⟨rfl, rfl, ?_⟩
  simp only []
  exact List.take_of_length_le (by simp; omega)

/-- C4: `Resize(new_size)` in three cases — at most the current size:
only the size is reduced (capacity and buffer untouched); between size
and capacity: the newly exposed positions are default-constructed in
place and the size becomes `new_size`; beyond the capacity: a buffer of
exactly `new_size` is made, the live elements relocated, the remainder
defaulted, and size and capacity both become `new_size`.  Consequently
`Resize N; Resize M; Resize N` with `M ≤ N` keeps positions below `M` and
re-defaults positions `[M, N)` instead of exposing stale values. -/
theorem resize_spec {v : SimpleVector α} (h : v.WF) :
    (∀ n, n ≤ v.size → v.Resize n = ⟨n, v.capacity, v.items⟩) ∧
    (∀ n, v.size < n → n ≤ v.capacity →
      (v.Resize n).size = n ∧ (v.Resize n).capacity = v.capacity ∧
      (v.Resize n).elems = v.elems ++ List.replicate (n - v.size) default) ∧
    (∀ n, v.capacity < n →
      (v.Resize n).size = n ∧ (v.Resize n).capacity = n ∧
      (v.Resize n).elems = v.elems ++ List.replicate (n - v.size) default) ∧
    (∀ N M, M ≤ N →
      (((v.Resize N).Resize M).Resize N).elems =
        (v.Resize N).elems.take M ++ List.replicate (N - M) default) := by
  refine ⟨fun n hn => resize_shrink hn,
    fun n h1 h2 => resize_inplace h h1 h2,
    fun n h2 => resize_realloc h h2, ?_⟩
  intro N M hMN
  have hu : (v.Resize N).WF := wf_Resize h N
  have husize : (v.Resize N).size = N := size_Resize v N
  have hucap : N ≤ (v.Resize N).capacity := by
    have := hu.1
    omega
  have hwsize : ((v.Resize N).Resize M).size = M := size_Resize _ M
  have hwitems : ((v.Resize N).Resize M).items = (v.Resize N).items := by
    rw [resize_shrink (by omega)]
  have hwcap : ((v.Resize N).Resize M).capacity = (v.Resize N).capacity := by
    rw [resize_shrink (by omega)]
  have hwwf : ((v.Resize N).Resize M).WF := wf_Resize hu M
  rcases eq_or_lt_of_le hMN with hEq | hLt
  · subst hEq
    have houter : ((v.Resize M).Resize M).Resize M =
        ⟨M, ((v.Resize M).Resize M).capacity,
          ((v.Resize M).Resize M).items⟩ :=
      resize_shrink (by omega)
    rw [houter]
    unfold SimpleVector.elems
    simp only [hwitems]
    rw [husize, List.take_take, Nat.min_self, Nat.sub_self]
    simp
  · obtain ⟨hs, hc, he⟩ := resize_inplace (n := N) hwwf (by omega) (by omega)
    rw [he]
    unfold SimpleVector.elems
    simp only [hwitems, hwsize, husize, List.take_take]
    rw [Nat.min_eq_left (le_of_lt hLt)]

/-- Witness for C4: shrinking `{1, 2, 3}` to one element. -/
theorem resize_spec_witness :
    (SimpleVector.mkFromList [(1 : Nat), 2, 3]).WF ∧
    (SimpleVector.mkFromList [(1 : Nat), 2, 3]).Resize 1 =
      ⟨1, (SimpleVector.mkFromList [(1 : Nat), 2, 3]).capacity,
        (SimpleVector.mkFromList [(1 : Nat), 2, 3]).items⟩ :=
  ⟨by decide, (resize_spec (by decide)).1 1 (by decide)⟩

/-!
Checked access, pop, copy and self-assignment (claims C5, C8, C7, C10).
-/

/-- C5: `At(i)` raises `IndexOutOfRange` exactly when `i ≥ GetSize()`,
returns the element at position `i` when `i < GetSize()`, and in both
cases leaves the vector (size, capacity, elements) unchanged. -/
theorem at_spec (v : SimpleVector α) (i : Nat) :
    ((v.At i).1 = .error .indexOutOfRange ↔ v.size ≤ i) ∧
    (i < v.size → (v.At i).1 = .ok (v.opIndex i)) ∧
    (v.At i).2 = v := by
  refine ⟨⟨?_, ?_⟩, ?_, at_state v i⟩
  · intro hE
    by_contra hc
    unfold SimpleVector.At at hE
    rw [if_neg (by omega)] at hE
    simp at hE
  · intro hle
    unfold SimpleVector.At
    rw [if_pos hle]
  · intro hlt
    unfold SimpleVector.At SimpleVector.opIndex
    rw [if_neg (by omega)]

/-- Witness for C5: in-range access on `{3, 4}`. -/
theorem at_spec_witness :
    ((SimpleVector.mkFromList [(3 : Nat), 4]).At 0).1 =
      .ok ((SimpleVector.mkFromList [(3 : Nat), 4]).opIndex 0) :=
  (at_spec (SimpleVector.mkFromList [(3 : Nat), 4]) 0).2.1 (by decide)

/-- C8: `PopBack` decrements the size by one when `size > 0`, is a silent
no-op on an empty vector, never raises an error (it is total), and
changes neither the capacity, nor the buffer, nor the elements that
remain live. -/
theorem popBack_spec (v : SimpleVector α) :
    v.PopBack.capacity = v.capacity ∧
    v.PopBack.items = v.items ∧
    (v.size = 0 → v.PopBack = v) ∧
    (0 < v.size → v.PopBack.size = v.size - 1) ∧
    v.PopBack.elems = v.elems.take (v.size - 1) := by
  unfold SimpleVector.PopBack
  split
  · refine ⟨rfl, rfl, fun h0 => by omega, fun _ => rfl, ?_⟩
    unfold SimpleVector.elems
    simp only []
    rw [List.take_take, Nat.min_eq_left (by omega)]
  · have h0 : v.size = 0 := by omega
    refine ⟨rfl, rfl, fun _ => rfl, fun hpos => by omega, ?_⟩
    simp [SimpleVector.elems, h0]

/-- Witness for C8: popping the empty vector is the identity. -/
theorem popBack_spec_witness :
    (SimpleVector.mkDefault (α := Nat)).PopBack = SimpleVector.mkDefault :=
  (popBack_spec (SimpleVector.mkDefault (α := Nat))).2.2.1 rfl

lemma take_set_of_lt (l : List α) (i n : Nat) (x : α) (h : i < n) :
    (l.set i x).take n = (l.take n).set i x := by
  induction l generalizing i n with
  | nil => simp
  | cons a t ih =>
    cases i with
    | zero =>
      cases n with
      | zero => omega
      | succ m => simp
    | succ j =>
      cases n with
      | zero => omega
      | succ m =>
        simp only [List.set, List.take]
        rw [ih j m (by omega)]

/-- C7: copy construction — and copy assignment to a distinct object,
which materialises a full copy and swaps — yields a vector with the same
elements in the same order whose capacity equals the source's size, in a
fresh buffer; a subsequent write through the copy's `operator[]` lands in
the copy's own elements (the source, a distinct value, is untouched). -/
theorem copy_spec (t : SimpleVector α) {v : SimpleVector α} (h : v.WF) :
    v.copyCtor.size = v.size ∧
    v.copyCtor.capacity = v.size ∧
    v.copyCtor.elems = v.elems ∧
    t.copyAssign v false = v.copyCtor ∧
    (∀ i x, i < v.size →
      (v.copyCtor.opIndexWrite i x).elems = v.elems.set i x) := by
  obtain ⟨h1, h2⟩ := h
  refine ⟨rfl, rfl, ?_, rfl, ?_⟩
  · unfold SimpleVector.copyCtor SimpleVector.elems
    simp only []
    exact relocate_take (by omega) le_rfl
  · intro i x hi
    unfold SimpleVector.copyCtor SimpleVector.opIndexWrite
      SimpleVector.elems
    simp only []
    rw [take_set_of_lt _ _ _ _ hi, relocate_take (by omega) le_rfl]

/-- Witness for C7: copying `{8, 9}` and overwriting position 0 of the
copy. -/
theorem copy_spec_witness :
    (SimpleVector.mkFromList [(8 : Nat), 9]).WF ∧
    ((SimpleVector.mkFromList [(8 : Nat), 9]).copyCtor.opIndexWrite 0
        7).elems =
      (SimpleVector.mkFromList [(8 : Nat), 9]).elems.set 0 7 :=
  ⟨by decide,
    (copy_spec SimpleVector.mkDefault (by decide)).2.2.2.2 0 7 (by decide)⟩

/-- C10: assigning a vector to itself, by copy assignment or by move
assignment (the `this != &rhs` guard), leaves it unchanged — same size,
same capacity, same elements; self-move does not empty the vector. -/
theorem self_assign_spec (v : SimpleVector α) :
    v.copyAssign v true = v ∧
    (v.moveAssign v true).1 = v ∧
    (v.moveAssign v true).1.size = v.size ∧
    (v.moveAssign v true).1.capacity = v.capacity ∧
    (v.moveAssign v true).1.elems = v.elems :=
  ⟨rfl, rfl, rfl, rfl, rfl⟩

/-!
Allocation failure is atomic (claim C6): in every growing operation the
allocation precedes all mutation, so a failure leaves the vector exactly
as it was.  The lemmas with a constantly-true oracle tie the oracle
variants back to the plain operations.
-/

lemma ReserveF_true (v : SimpleVector α) (c : Nat) :
    v.ReserveF (fun _ => true) c = (none, v.Reserve c) := by
  unfold SimpleVector.ReserveF SimpleVector.Reserve
  split <;> simp

lemma ResizeF_true (v : SimpleVector α) (n : Nat) :
    v.ResizeF (fun _ => true) n = (none, v.Resize n) := by
  unfold SimpleVector.ResizeF SimpleVector.Resize
  split
  · rfl
  · split <;> simp

lemma EmplaceBackF_true (v : SimpleVector α) (x : α) :
    v.EmplaceBackF (fun _ => true) x = (none, v.EmplaceBack x) := by
  unfold SimpleVector.EmplaceBackF SimpleVector.EmplaceBack
  split <;> simp

lemma EmplaceF_true (v : SimpleVector α) (k : Nat) (x : α) :
    v.EmplaceF (fun _ => true) k x = (none, (v.Emplace k x).1) := by
  unfold SimpleVector.EmplaceF SimpleVector.Emplace
  split <;> simp

/-- C6: whenever a growing operation (`Reserve` beyond capacity, `Resize`
beyond capacity, `EmplaceBack`/`Emplace` at full capacity) fails to
allocate the new buffer, the allocation error propagates and the
observable state — size, capacity and all elements — is exactly the
pre-call state. -/
theorem alloc_failure_spec (alloc : Nat → Bool) {v : SimpleVector α}
    (h : v.WF) :
    (∀ c, v.capacity < c → alloc c = false →
      v.ReserveF alloc c = (some .allocationFailure, v)) ∧
    (∀ n, v.capacity < n → alloc n = false →
      v.ResizeF alloc n = (some .allocationFailure, v)) ∧
    (∀ x, v.size = v.capacity → alloc (newCap v.capacity) = false →
      v.EmplaceBackF alloc x = (some .allocationFailure, v)) ∧
    (∀ k x, v.size = v.capacity → alloc (newCap v.capacity) = false →
      v.EmplaceF alloc k x = (some .allocationFailure, v)) := by
  obtain ⟨h1, h2⟩ := h
  refine ⟨?_, ?_, ?_, ?_⟩
  · intro c hc hfail
    unfold SimpleVector.ReserveF
    rw [if_neg (by omega)]
    simp [hfail]
  · intro n hn hfail
    unfold SimpleVector.ResizeF
    rw [if_neg (by omega), if_neg (by omega)]
    simp [hfail]
  · intro x hfull hfail
    unfold SimpleVector.EmplaceBackF
    rw [if_pos (by omega)]
    simp [hfail]
  · intro k x hfull hfail
    unfold SimpleVector.EmplaceF
    rw [if_pos (by omega)]
    simp [hfail]

/-- Witness for C6: a failing allocation during `Reserve(2)` on the full
one-element vector `{1}`. -/
theorem alloc_failure_spec_witness :
    (SimpleVector.mkFromList [(1 : Nat)]).WF ∧
    (SimpleVector.mkFromList [(1 : Nat)]).ReserveF (fun _ => false) 2 =
      (some .allocationFailure, SimpleVector.mkFromList [(1 : Nat)]) :=
  ⟨by decide, (alloc_failure_spec (fun _ => false) (by decide)).1 2
    (by decide) rfl⟩

/-!
Moves of the buffer owner (claim C9).  Move construction performs no heap
call, but move assignment to an owner that holds a block runs
`delete[] raw_ptr_` on it — one deallocation — before taking the source's
pointer, so the claim that neither move operation ever deallocates fails.
-/

/-- C9 counterexample: move-assigning onto an `ArrayPtr` that owns a
block performs one deallocation, refuting "no allocation or deallocation
is performed" for move assignment. -/
theorem arrayPtr_moveAssign_dealloc_cex :
    ¬ ((ArrayPtr.moveAssign (⟨some [(0 : Nat)]⟩ : ArrayPtr Nat)
        ⟨some [1]⟩ false).deallocations = 0) := by decide

/-- C9 (amended): move construction and move assignment transfer the
owned block to the destination and leave the source empty (its boolean
conversion is false); neither allocates; move construction never
deallocates, and move assignment deallocates exactly the destination's
previously owned block — one deallocation when it owned one, none when it
was empty. -/
theorem arrayPtr_move_spec (p q : ArrayPtr α) :
    (ArrayPtr.moveCtor q).dest.block = q.block ∧
    (ArrayPtr.moveCtor q).src.block = none ∧
    (ArrayPtr.moveCtor q).src.toBool = false ∧
    (ArrayPtr.moveCtor q).allocations = 0 ∧
    (ArrayPtr.moveCtor q).deallocations = 0 ∧
    (ArrayPtr.moveAssign p q false).dest.block = q.block ∧
    (ArrayPtr.moveAssign p q false).src.block = none ∧
    (ArrayPtr.moveAssign p q false).src.toBool = false ∧
    (ArrayPtr.moveAssign p q false).allocations = 0 ∧
    (ArrayPtr.moveAssign p q false).deallocations =
      (if p.block.isSome then 1 else 0) :=
  ⟨rfl, rfl, rfl, rfl, rfl, rfl, rfl, rfl, rfl, rfl⟩
